import Mathlib

/-!
# Verification of the @oxog/uid ID generation engine

Shallow embedding of the core generation, parsing and validation routines of
the repository (UUID v4/v7, ULID and its monotonic variant, Snowflake, CUID2,
and the generic arbitrary-alphabet base codec), together with proofs and
refutations of the specified properties.

Bytes are modelled as `Nat` values below 256 (`Uint8Array` elements), byte
arrays as `List Nat`, strings as `String` / `List Char`.  JavaScript bitwise
operations on nonnegative integers are modelled with `Nat` bitwise operators.
-/

namespace UID

/-- Error codes of `UidError` (src/types) raised by the embedded functions.
`decodeBase` reports an unknown character with the `INVALID_ALPHABET` code,
exactly as the source does. -/
inductive UidErr where
  | invalidAlphabet
  | invalidSize
  | notConfigured
  | clockBackwards
  deriving DecidableEq, Repr

/-! ## Generic digit machinery

Both `utils.encodeBase` and the byte serialization inside `utils.decodeBase`
run the same loop: repeatedly divide by the base and prepend the remainder
until the value is zero (so the digit list is most-significant first and has
no leading zeros; zero gives the empty list).  `toBaseDigits` embeds that
loop; the fuel argument only makes the recursion structural, any fuel `≥ n`
computes the same list. -/

/-- The divide-and-prepend loop, with explicit fuel. -/
def toBaseDigitsAux (b : Nat) : Nat → Nat → List Nat
  | 0, _ => []
  | _ + 1, 0 => []
  | fuel + 1, n + 1 => toBaseDigitsAux b fuel ((n + 1) / b) ++ [(n + 1) % b]

/-- Most-significant-first base-`b` digits of `n`, no leading zeros. -/
def toBaseDigits (b n : Nat) : List Nat :=
  toBaseDigitsAux b n n

/-- The accumulation loop of `utils.decodeBase` (`value = value*base + index`),
used in proofs to state what a digit list denotes. -/
def ofBaseDigits (b : Nat) (l : List Nat) : Nat :=
  l.foldl (fun acc d => acc * b + d) 0

/-- `utils.bytesToNumber`: big-endian fold `num = (num << 8n) | BigInt(byte)`. -/
def bytesToNumber (bytes : List Nat) : Nat :=
  bytes.foldl (fun num byte => (num <<< 8) ||| byte) 0

/-- `utils.validateAlphabet` as a boolean: at least two characters and no
duplicates (the source compares `new Set(alphabet).size` with the length). -/
def validAlphabet (alphabet : List Char) : Bool :=
  decide (2 ≤ alphabet.length) && decide alphabet.Nodup

/-- `utils.encodeBase`: validate the alphabet, treat the bytes as one
big-endian integer and emit its base-`alphabet.length` digits
most-significant first (empty input and all-zero input give `""`). -/
def encodeBase (bytes : List Nat) (alphabet : List Char) : Except UidErr (List Char) :=
  if !validAlphabet alphabet then .error .invalidAlphabet
  else if bytes = [] then .ok []
  else .ok ((toBaseDigits alphabet.length (bytesToNumber bytes)).map
    (fun d => alphabet.getD d ' '))

/-- The character-accumulation loop of `utils.decodeBase`.  The source looks
each character up in a map built from the (duplicate-free, already validated)
alphabet, which agrees with `List.indexOf`; a missing character raises
`INVALID_ALPHABET`. -/
def decodeNum (alphabet : List Char) : Nat → List Char → Except UidErr Nat
  | num, [] => .ok num
  | num, c :: rest =>
    if c ∈ alphabet then
      decodeNum alphabet (num * alphabet.length + List.indexOf c alphabet) rest
    else .error .invalidAlphabet

/-- `utils.decodeBase`: accumulate the value, then serialize it back to bytes,
left-padded with zeros to `ceil(str.length * ceil(log2 base) / 8)` bytes
(`Math.ceil (Math.log2 base)` is `Nat.clog 2 base` for the integer bases in
range). -/
def decodeBase (str : List Char) (alphabet : List Char) : Except UidErr (List Nat) :=
  if !validAlphabet alphabet then .error .invalidAlphabet
  else
    match decodeNum alphabet 0 str with
    | .error e => .error e
    | .ok num =>
      let bitLength := str.length * Nat.clog 2 alphabet.length
      let byteLength := (bitLength + 7) / 8
      if num = 0 then .ok (List.replicate byteLength 0)
      else
        let bytes := toBaseDigits 256 num
        .ok (List.replicate (byteLength - bytes.length) 0 ++ bytes)

/-- Left-trim, or left-pad with zero bytes, to a target length: the external
byte-length tracking under which the spec states the codec round-trip law. -/
def normalizeLen (l : List Nat) (n : Nat) : List Nat :=
  if n ≤ l.length then l.drop (l.length - n) else List.replicate (n - l.length) 0 ++ l

/-! ## ULID (src/plugins/ulid) -/

/-- Crockford Base32 alphabet used by the ULID plugin. -/
def CROCKFORD_BASE32 : List Char := "0123456789ABCDEFGHJKMNPQRSTVWXYZ".data

/-- JavaScript `String.prototype.toUpperCase` on a single ASCII character. -/
def jsToUpper (c : Char) : Char :=
  if 'a' ≤ c ∧ c ≤ 'z' then Char.ofNat (c.toNat - 32) else c

/-- `ulid.encodeTime`: the loop runs `i = length-1` down to `0` and `unshift`s
each character, so the finished string has the digit for `i = 0` first —
position `i` of the result holds `(ts >> (5*i)) & 0x1f` (the LEAST significant
5-bit group comes first). -/
def encodeTime (timestamp len : Nat) : List Char :=
  (List.range len).map (fun i => CROCKFORD_BASE32.getD ((timestamp >>> (5 * i)) &&& 31) '0')

/-- `ulid.decodeTime`: uppercase each character; a character absent from the
alphabet (`indexOf === -1`) is skipped with `continue`; present characters are
folded as 5-bit digits, first character most significant. -/
def decodeTime (timeStr : List Char) : Nat :=
  timeStr.foldl (fun timestamp c =>
    if jsToUpper c ∈ CROCKFORD_BASE32 then
      (timestamp <<< 5) ||| List.indexOf (jsToUpper c) CROCKFORD_BASE32
    else timestamp) 0

/-- `ulid.generateUlid`: 10 time characters followed by
`encodeBase(randomBytes, CROCKFORD_BASE32).slice(0, 16)` (note: `encodeBase`
emits no leading zeros, and nothing pads its output to 16 characters). -/
def generateUlid (ts : Nat) (randomBytes : List Nat) : Except UidErr String :=
  match encodeBase randomBytes CROCKFORD_BASE32 with
  | .error e => .error e
  | .ok chars => .ok (String.mk (encodeTime ts 10 ++ chars.take 16))

/-- `ulid.isValidUlid`: length 26 and the case-insensitive Crockford pattern. -/
def isValidUlid (id : List Char) : Bool :=
  id.length == 26 && id.all (fun c => jsToUpper c ∈ CROCKFORD_BASE32)

/-- Module-level monotonic state of the ULID plugin (`lastTime`, `lastRandom`). -/
structure UlidState where
  lastTime : Nat
  lastRandom : Nat
  deriving DecidableEq, Repr

/-- Byte-array increment of `generateMonotonicUlid`: carry starts at 1 and the
loop walks from the last byte backward while the carry is nonzero; a carry out
of byte 0 is dropped.  `incLE` performs it on the reversed (little-endian)
list. -/
def incLE : List Nat → List Nat
  | [] => []
  | b :: rest =>
    ((b + 1) &&& 255) :: (if (b + 1) >>> 8 ≠ 0 then incLE rest else rest)

/-- The increment on the byte array in source order. -/
def incrementBytes (bytes : List Nat) : List Nat :=
  (incLE bytes.reverse).reverse

/-- One call of `api.monotonic()`: the `getState` closure resets `lastRandom`
to 0 when the millisecond changed (and writes `lastTime := now`, so the
`now === lastTime` test inside `generateMonotonicUlid` is then always true and
the same-millisecond branch is taken exactly when the returned `lastRandom`
was positive).  The branch increments the FRESH random draw of this call; the
state update stores `now` and `lastRandom + 1`. -/
def generateMonotonicUlid (st : UlidState) (now : Nat) (draw : List Nat) :
    UlidState × Except UidErr String :=
  let lr := if now = st.lastTime then st.lastRandom else 0
  let bytes := if 0 < lr then incrementBytes draw else draw
  let st2 : UlidState := ⟨now, lr + 1⟩
  match encodeBase bytes CROCKFORD_BASE32 with
  | .error e => (st2, .error e)
  | .ok chars => (st2, .ok (String.mk (encodeTime now 10 ++ chars.take 16)))

/-! ## UUID (src/plugins/uuid) -/

/-- One lowercase hexadecimal digit, as produced by `toString(16)`. -/
def hexDigitChar (n : Nat) : Char :=
  if n < 10 then Char.ofNat (48 + n) else Char.ofNat (87 + n)

/-- `utils.byteToHex`: two lowercase hex characters (`padStart(2, '0')`). -/
def byteToHexChars (b : Nat) : List Char :=
  [hexDigitChar (b / 16), hexDigitChar (b % 16)]

/-- `utils.toHex` on a byte list. -/
def toHex (bytes : List Nat) : List Char :=
  bytes.flatMap byteToHexChars

/-- `uuid.formatUuid`: the 32 hex characters in groups 8-4-4-4-12 joined by
dashes. -/
def formatUuid (bytes : List Nat) : String :=
  let hex := toHex bytes
  String.mk (hex.take 8 ++ '-' :: ((hex.drop 8).take 4) ++ '-' :: ((hex.drop 12).take 4)
    ++ '-' :: ((hex.drop 16).take 4) ++ '-' :: hex.drop 20)

/-- `uuid.generateV4` on a 16-byte random draw: byte 6 becomes
`(b & 0x0f) | 0x40`, byte 8 becomes `(b & 0x3f) | 0x80`. -/
def generateV4 (random : List Nat) : String :=
  let bytes := (random.set 6 ((random.getD 6 0 &&& 0x0f) ||| 0x40)).set 8
    ((random.getD 8 0 &&& 0x3f) ||| 0x80)
  formatUuid bytes

/-- `uuid.generateV7` on a timestamp and a 10-byte random draw.  The timestamp
loop writes `bytes[i] = (ts >> (i*8)) & 0xff` for `i = 5..0`, so byte 0
receives the LEAST significant timestamp byte.  Bytes 6 and 8 start at 0, get
the version/variant bits, then their low bits are replaced from the draw. -/
def generateV7 (ts : Nat) (random : List Nat) : String :=
  let tsBytes := (List.range 6).map (fun i => (ts >>> (8 * i)) &&& 255)
  let v6 := (0 &&& 0x0f) ||| 0x70
  let b6 := (v6 &&& 0xf0) ||| (random.getD 0 0 &&& 0x0f)
  let v8 := (0 &&& 0x3f) ||| 0x80
  let b8 := (v8 &&& 0xc0) ||| (random.getD 2 0 &&& 0x3f)
  let bytes := tsBytes ++ [b6, random.getD 1 0, b8] ++ ((random.drop 3).take 7)
  formatUuid bytes

/-- The UUID variant classification of `parseUuid`. -/
inductive UuidVariant where
  | NCS
  | Microsoft
  | Future
  | RFC4122
  deriving DecidableEq, Repr

/-- The record returned by `uuid.parseUuid`. -/
structure UuidParsed where
  version : Nat
  variant : UuidVariant
  bytes : List Nat
  timestamp : Option Nat
  deriving DecidableEq, Repr

/-- One character of the `/^[0-9a-f]{8}-…$/i` pattern classes. -/
def isHexDigitChar (c : Char) : Bool :=
  ('0' ≤ c && c ≤ '9') || ('a' ≤ c && c ≤ 'f') || ('A' ≤ c && c ≤ 'F')

/-- `uuid.isValidUuid`: the canonical 8-4-4-4-12 pattern, case-insensitive. -/
def isValidUuid (s : String) : Bool :=
  let cs := s.data
  cs.length == 36 && (List.range 36).all (fun i =>
    if i == 8 || i == 13 || i == 18 || i == 23 then cs.getD i ' ' == '-'
    else isHexDigitChar (cs.getD i ' '))

/-- Value of one hex character (`parseInt` base 16, either case). -/
def hexVal (c : Char) : Nat :=
  if '0' ≤ c ∧ c ≤ '9' then c.toNat - 48
  else if 'a' ≤ c ∧ c ≤ 'f' then c.toNat - 87
  else if 'A' ≤ c ∧ c ≤ 'F' then c.toNat - 55
  else 0

/-- `uuid.parseUuid`: validate, strip dashes, read 16 hex byte pairs, version
from the high nibble of byte 6, variant from the top two bits of byte 8 with
the source's classification (`0b00 → NCS`, `0b10 → Microsoft`, `0b11 →
Future`, otherwise `RFC4122`), and for version 7 the big-endian fold of the
first six bytes as the timestamp. -/
def parseUuid (s : String) : Option UuidParsed :=
  if !isValidUuid s then none
  else
    let hex := s.data.filter (fun c => c ≠ '-')
    let bytes := (List.range 16).map
      (fun i => 16 * hexVal (hex.getD (2 * i) '0') + hexVal (hex.getD (2 * i + 1) '0'))
    let version := (bytes.getD 6 0 >>> 4) &&& 0x0f
    let variantBits := bytes.getD 8 0 >>> 6
    let variant :=
      if variantBits = 0 then UuidVariant.NCS
      else if variantBits = 2 then UuidVariant.Microsoft
      else if variantBits = 3 then UuidVariant.Future
      else UuidVariant.RFC4122
    let timestamp :=
      if version = 7 then some ((bytes.take 6).foldl (fun t b => (t <<< 8) ||| b) 0)
      else none
    some ⟨version, variant, bytes, timestamp⟩

/-! ## Snowflake (src/plugins/snowflake) -/

/-- 2021-01-01T00:00:00Z in milliseconds. -/
def DEFAULT_EPOCH : Nat := 1609459200000

/-- `SnowflakeConfig` (epoch optional, defaulted at use sites). -/
structure SnowflakeConfig where
  workerId : Nat
  datacenterId : Nat
  epoch : Option Nat
  deriving DecidableEq, Repr

/-- The module-level mutable snowflake state (`sequence`, `lastTime`). -/
structure SnowflakeState where
  sequence : Nat
  lastTime : Nat
  deriving DecidableEq, Repr

/-- The 64-bit composition of `generateSnowflake`:
`(timestamp << 22) | ((datacenterId & 0x1f) << 17) | ((workerId & 0x1f) << 12) | sequence`. -/
def snowflakeCompose (timestamp datacenterId workerId seq : Nat) : Nat :=
  (timestamp <<< 22) ||| ((datacenterId &&& 0x1f) <<< 17) |||
    ((workerId &&& 0x1f) <<< 12) ||| seq

/-- One decimal digit character. -/
def decDigitChar (d : Nat) : Char := Char.ofNat (48 + d)

/-- `BigInt.prototype.toString` (base 10) on a nonnegative value. -/
def toDecimalString (n : Nat) : String :=
  if n = 0 then "0" else String.mk ((toBaseDigits 10 n).map decDigitChar)

/-- `BigInt(id)` on a string of decimal digits. -/
def parseDecimal (s : String) : Nat :=
  s.data.foldl (fun acc c => acc * 10 + (c.toNat - 48)) 0

/-- The record returned by `parseSnowflake` (the `Date` holds
`timestamp + epoch` milliseconds). -/
structure SnowflakeParsed where
  timestamp : Nat
  datacenterId : Nat
  workerId : Nat
  sequence : Nat
  deriving DecidableEq, Repr

/-- `parseSnowflake`: shift/mask each field out of the decimal value and add
the epoch to the 41-bit relative timestamp. -/
def parseSnowflake (id : String) (epoch : Nat) : SnowflakeParsed :=
  let snowflake := parseDecimal id
  { timestamp := ((snowflake >>> 22) &&& 0x1ffffffffff) + epoch
    datacenterId := (snowflake >>> 17) &&& 0x1f
    workerId := (snowflake >>> 12) &&& 0x1f
    sequence := snowflake &&& 0xfff }

/-- `isValidSnowflake`: the regular expression test for 1 to 20 decimal
digits (nothing else is checked). -/
def isValidSnowflake (s : String) : Bool :=
  decide (1 ≤ s.data.length) && decide (s.data.length ≤ 20) &&
    s.data.all (fun c => '0' ≤ c && c ≤ '9')

/-- One call of the snowflake API function as installed by the plugin: the
`NOT_CONFIGURED` guard in the closure, then `generateSnowflake` with the
`CLOCK_BACKWARDS` guard, the sequence update (`(sequence + 1) & 0xfff` in the
same millisecond, otherwise 0 — the busy-wait on sequence wraparound only
watches the wall clock and touches no state) and the `lastTime` update, then
the composed value rendered in decimal.  `now - epoch` is the relative
timestamp (the claims under verification keep `epoch ≤ now`). -/
def snowflakeStep (config : Option SnowflakeConfig) (st : SnowflakeState) (now : Nat) :
    SnowflakeState × Except UidErr String :=
  match config with
  | none => (st, .error .notConfigured)
  | some cfg =>
    if now < st.lastTime then (st, .error .clockBackwards)
    else
      let seq := if now = st.lastTime then (st.sequence + 1) &&& 0xfff else 0
      let epoch := cfg.epoch.getD DEFAULT_EPOCH
      (⟨seq, now⟩,
        .ok (toDecimalString (snowflakeCompose (now - epoch) cfg.datacenterId cfg.workerId seq)))

/-! ## CUID2 (src/plugins/cuid2) -/

/-- The base36 alphabet of the CUID2 plugin. -/
def ALPHABET : List Char := "0123456789abcdefghijklmnopqrstuvwxyz".data

/-- `Number.prototype.toString(36)` on a nonnegative integer (lowercase). -/
def toBase36String (n : Nat) : List Char :=
  if n = 0 then ['0'] else (toBaseDigits 36 n).map (fun d => ALPHABET.getD d ' ')

/-- The random-part loop of `generateCuid2`: one base36 character per byte
(`ALPHABET[byte % 36]`), breaking once the accumulated string reaches the
target length. -/
def cuidRandomLoop (target : Nat) : List Nat → List Char → List Char
  | [], acc => acc
  | b :: rest, acc =>
    let acc2 := acc ++ [ALPHABET.getD (b % 36) ' ']
    if target ≤ acc2.length then acc2 else cuidRandomLoop target rest acc2

/-- `generateCuid2` at requested length `len`, first letter `firstLetter`
(drawn from `Math.random`), wall clock `nowMs`, random byte supply `draw`
(of which `Math.ceil(randomLength * 0.75)` bytes are drawn) and the machine
fingerprint: validate the length (24 to 32), then concatenate first letter,
base36 timestamp, random characters and fingerprint, truncated to `len`. -/
def generateCuid2 (len : Nat) (firstLetter : Char) (nowMs : Nat) (draw : List Nat)
    (fingerprint : List Char) : Except UidErr (List Char) :=
  if len < 24 ∨ 32 < len then .error .invalidSize
  else
    let timestamp := toBase36String nowMs
    let randomLength := max 8 (len - 1 - timestamp.length - fingerprint.length)
    let bytesNeeded := (3 * randomLength + 3) / 4
    let randomStr := cuidRandomLoop randomLength (draw.take bytesNeeded) []
    .ok ((firstLetter :: (timestamp ++ randomStr ++ fingerprint)).take len)

/-- `isValidCuid2`: length 24 to 32, a leading lowercase letter, and a body of
letters (either case) and digits. -/
def isValidCuid2 (id : List Char) : Bool :=
  if decide (id.length < 24) || decide (32 < id.length) then false
  else
    match id with
    | [] => false
    | c :: _ =>
      ('a' ≤ c && c ≤ 'z') && id.all (fun ch =>
        ('a' ≤ ch && ch ≤ 'z') || ('A' ≤ ch && ch ≤ 'Z') || ('0' ≤ ch && ch ≤ '9'))

/-! ## Helper lemmas: digit lists -/

theorem toBaseDigitsAux_congr {b : Nat} (hb : 2 ≤ b) :
    ∀ n f1 f2, n ≤ f1 → n ≤ f2 → toBaseDigitsAux b f1 n = toBaseDigitsAux b f2 n := by
  intro n
  induction n using Nat.strong_induction_on with
  | _ n ih =>
    match n with
    | 0 =>
      intro f1 f2 _ _
      cases f1 <;> cases f2 <;> rfl
    | m + 1 =>
      intro f1 f2 h1 h2
      obtain ⟨g1, rfl⟩ : ∃ g, f1 = g + 1 := ⟨f1 - 1, by omega⟩
      obtain ⟨g2, rfl⟩ : ∃ g, f2 = g + 1 := ⟨f2 - 1, by omega⟩
      show toBaseDigitsAux b g1 ((m + 1) / b) ++ _ = toBaseDigitsAux b g2 ((m + 1) / b) ++ _
      have hdiv : (m + 1) / b < m + 1 := Nat.div_lt_self (Nat.succ_pos m) (by omega)
      congr 1
      exact ih _ hdiv g1 g2 (by omega) (by omega)

theorem toBaseDigits_pos {b n : Nat} (hb : 2 ≤ b) (hn : 0 < n) :
    toBaseDigits b n = toBaseDigits b (n / b) ++ [n % b] := by
  obtain ⟨m, rfl⟩ : ∃ m, n = m + 1 := ⟨n - 1, by omega⟩
  show toBaseDigitsAux b m ((m + 1) / b) ++ _ = _
  have hdiv : (m + 1) / b < m + 1 := Nat.div_lt_self (Nat.succ_pos m) (by omega)
  congr 1
  exact toBaseDigitsAux_congr hb _ m _ (by omega) (le_refl _)

theorem ofBaseDigits_acc (b : Nat) (l : List Nat) (acc : Nat) :
    l.foldl (fun a d => a * b + d) acc = acc * b ^ l.length + ofBaseDigits b l := by
  induction l generalizing acc with
  | nil => simp [ofBaseDigits]
  | cons d t ih =>
    show t.foldl _ (acc * b + d) = _
    rw [ih (acc * b + d)]
    have hd : ofBaseDigits b (d :: t) = d * b ^ t.length + ofBaseDigits b t := by
      show t.foldl _ (0 * b + d) = _
      rw [ih (0 * b + d)]
      ring
    rw [hd]
    simp [List.length_cons, pow_succ]
    ring

theorem ofBaseDigits_append (b : Nat) (l1 l2 : List Nat) :
    ofBaseDigits b (l1 ++ l2) = ofBaseDigits b l1 * b ^ l2.length + ofBaseDigits b l2 := by
  unfold ofBaseDigits
  rw [List.foldl_append, ofBaseDigits_acc]
  rfl

theorem ofBaseDigits_toBaseDigits {b : Nat} (hb : 2 ≤ b) (n : Nat) :
    ofBaseDigits b (toBaseDigits b n) = n := by
  induction n using Nat.strong_induction_on with
  | _ n ih =>
    by_cases hn : n = 0
    · subst hn; rfl
    · rw [toBaseDigits_pos hb (Nat.pos_of_ne_zero hn), ofBaseDigits_append,
        ih (n / b) (Nat.div_lt_self (Nat.pos_of_ne_zero hn) (by omega))]
      show n / b * b ^ 1 + (0 * b + n % b) = n
      have hdm := Nat.div_add_mod n b
      calc n / b * b ^ 1 + (0 * b + n % b) = b * (n / b) + n % b := by ring
        _ = n := hdm

theorem toBaseDigits_digit_lt {b n : Nat} (hb : 2 ≤ b) :
    ∀ d ∈ toBaseDigits b n, d < b := by
  induction n using Nat.strong_induction_on with
  | _ n ih =>
    by_cases hn : n = 0
    · subst hn; intro d hd; cases hd
    · rw [toBaseDigits_pos hb (Nat.pos_of_ne_zero hn)]
      intro d hd
      rcases List.mem_append.1 hd with h | h
      · exact ih (n / b) (Nat.div_lt_self (Nat.pos_of_ne_zero hn) (by omega)) d h
      · rw [List.mem_singleton.1 h]
        exact Nat.mod_lt _ (by omega)

theorem toBaseDigits_length_le {b n k : Nat} (hb : 2 ≤ b) (h : n < b ^ k) :
    (toBaseDigits b n).length ≤ k := by
  induction n using Nat.strong_induction_on generalizing k with
  | _ n ih =>
    by_cases hn : n = 0
    · subst hn; simp [toBaseDigits, toBaseDigitsAux]
    · rw [toBaseDigits_pos hb (Nat.pos_of_ne_zero hn)]
      match k with
      | 0 =>
        exfalso
        simp only [pow_zero] at h
        omega
      | k + 1 =>
        have hdiv : n / b < b ^ k := by
          rw [Nat.div_lt_iff_lt_mul (by omega)]
          calc n < b ^ (k + 1) := h
            _ = b ^ k * b := by rw [pow_succ]
        have := ih (n / b) (Nat.div_lt_self (Nat.pos_of_ne_zero hn) (by omega)) hdiv
        simp [List.length_append]
        omega

theorem ofBaseDigits_lt {b : Nat} {l : List Nat} (_hb : 0 < b) (h : ∀ d ∈ l, d < b) :
    ofBaseDigits b l < b ^ l.length := by
  induction l with
  | nil =>
    have h0 : ofBaseDigits b [] = 0 := rfl
    have h1 : b ^ ([] : List Nat).length = 1 := pow_zero b
    omega
  | cons d t ih =>
    have hd : ofBaseDigits b (d :: t) = d * b ^ t.length + ofBaseDigits b t := by
      show t.foldl _ (0 * b + d) = _
      rw [ofBaseDigits_acc]
      ring
    rw [hd]
    have h1 : ofBaseDigits b t < b ^ t.length := ih (fun x hx => h x (List.mem_cons_of_mem d hx))
    have h2 : d < b := h d (List.mem_cons_self d t)
    calc d * b ^ t.length + ofBaseDigits b t
        < d * b ^ t.length + b ^ t.length := by omega
      _ = (d + 1) * b ^ t.length := by ring
      _ ≤ b * b ^ t.length := Nat.mul_le_mul_right _ (by omega)
      _ = b ^ (d :: t).length := by rw [List.length_cons, pow_succ]; ring

theorem ofBaseDigits_replicate_zero (b z : Nat) (l : List Nat) :
    ofBaseDigits b (List.replicate z 0 ++ l) = ofBaseDigits b l := by
  rw [ofBaseDigits_append]
  have : ofBaseDigits b (List.replicate z 0) = 0 := by
    induction z with
    | zero => rfl
    | succ m ih =>
      show (List.replicate m 0).foldl _ (0 * b + 0) = 0
      simpa [ofBaseDigits] using ih
  rw [this]
  ring

theorem ofBaseDigits_inj {b : Nat} : ∀ {l1 l2 : List Nat}, l1.length = l2.length →
    (∀ d ∈ l1, d < b) → (∀ d ∈ l2, d < b) →
    ofBaseDigits b l1 = ofBaseDigits b l2 → l1 = l2 := by
  intro l1
  induction l1 with
  | nil =>
    intro l2 hlen _ _ _
    exact (List.length_eq_zero.1 hlen.symm).symm
  | cons d1 t1 ih =>
    intro l2 hlen h1 h2 hval
    match l2 with
    | d2 :: t2 =>
      have hb : 0 < b := by have := h1 d1 (List.mem_cons_self d1 t1); omega
      have htlen : t1.length = t2.length := by simpa using hlen
      have e1 : ofBaseDigits b (d1 :: t1) = d1 * b ^ t1.length + ofBaseDigits b t1 := by
        show t1.foldl _ (0 * b + d1) = _
        rw [ofBaseDigits_acc]; ring
      have e2 : ofBaseDigits b (d2 :: t2) = d2 * b ^ t1.length + ofBaseDigits b t2 := by
        show t2.foldl _ (0 * b + d2) = _
        rw [ofBaseDigits_acc, htlen]; ring
      have r1lt : ofBaseDigits b t1 < b ^ t1.length :=
        ofBaseDigits_lt hb (fun x hx => h1 x (List.mem_cons_of_mem d1 hx))
      have r2lt : ofBaseDigits b t2 < b ^ t1.length := by
        rw [htlen]
        exact ofBaseDigits_lt hb (fun x hx => h2 x (List.mem_cons_of_mem d2 hx))
      have hB : 0 < b ^ t1.length := Nat.pos_pow_of_pos _ hb
      rw [e1, e2] at hval
      have hd : d1 = d2 := by
        have q1 : (d1 * b ^ t1.length + ofBaseDigits b t1) / b ^ t1.length = d1 := by
          rw [Nat.mul_comm, Nat.mul_add_div hB, Nat.div_eq_of_lt r1lt]
          omega
        have q2 : (d2 * b ^ t1.length + ofBaseDigits b t2) / b ^ t1.length = d2 := by
          rw [Nat.mul_comm, Nat.mul_add_div hB, Nat.div_eq_of_lt r2lt]
          omega
        rw [← q1, ← q2, hval]
      subst hd
      have hr : ofBaseDigits b t1 = ofBaseDigits b t2 := Nat.add_left_cancel hval
      rw [ih htlen (fun x hx => h1 x (List.mem_cons_of_mem d1 hx))
        (fun x hx => h2 x (List.mem_cons_of_mem d1 hx)) hr]

/-! ## Helper lemmas: bytes, characters, decimal strings -/

theorem shiftLeft_or_eq_mul_add {num byte k : Nat} (h : byte < 2 ^ k) :
    (num <<< k) ||| byte = num * 2 ^ k + byte := by
  rw [Nat.shiftLeft_eq, Nat.mul_comm, ← Nat.mul_add_lt_is_or h num]

theorem bytesToNumber_eq_ofBaseDigits {bytes : List Nat} (h : ∀ x ∈ bytes, x < 256) :
    bytesToNumber bytes = ofBaseDigits 256 bytes := by
  unfold bytesToNumber ofBaseDigits
  induction bytes with
  | nil => rfl
  | cons b t ih =>
    have hacc : ∀ (l : List Nat) (a1 a2 : Nat), a1 = a2 → (∀ x ∈ l, x < 256) →
        l.foldl (fun num byte => (num <<< 8) ||| byte) a1 =
          l.foldl (fun acc d => acc * 256 + d) a2 := by
      intro l
      induction l with
      | nil => intro a1 a2 he _; simpa using he
      | cons x xs ihx =>
        intro a1 a2 he hl
        show xs.foldl _ ((a1 <<< 8) ||| x) = xs.foldl _ (a2 * 256 + x)
        refine ihx _ _ ?_ (fun y hy => hl y (List.mem_cons_of_mem x hy))
        rw [shiftLeft_or_eq_mul_add (show x < 2 ^ 8 from hl x (List.mem_cons_self x xs)), he]
        norm_num
    exact hacc (b :: t) 0 0 rfl h

theorem char_le_iff {a b : Char} : a ≤ b ↔ a.toNat ≤ b.toNat := by
  rw [Char.le_def, UInt32.le_def, BitVec.le_def]
  exact Iff.rfl

theorem toNat_ofNat_valid {n : Nat} (h : n < 55296) : (Char.ofNat n).toNat = n := by
  have hv : n.isValidChar := Or.inl h
  unfold Char.ofNat
  rw [dif_pos hv]
  rfl

theorem jsToUpper_toNat (c : Char) :
    (jsToUpper c).toNat = if 97 ≤ c.toNat ∧ c.toNat ≤ 122 then c.toNat - 32 else c.toNat := by
  unfold jsToUpper
  by_cases h : 'a' ≤ c ∧ c ≤ 'z'
  · have h1 : 97 ≤ c.toNat := char_le_iff.1 h.1
    have h2 : c.toNat ≤ 122 := char_le_iff.1 h.2
    rw [if_pos h, if_pos ⟨h1, h2⟩, toNat_ofNat_valid (by omega)]
  · have hnot : ¬(97 ≤ c.toNat ∧ c.toNat ≤ 122) := by
      intro hc
      exact h ⟨char_le_iff.2 hc.1, char_le_iff.2 hc.2⟩
    rw [if_neg h, if_neg hnot]

theorem jsToUpper_fix {c : Char} (h : ¬('a' ≤ c ∧ c ≤ 'z')) : jsToUpper c = c := by
  unfold jsToUpper
  rw [if_neg h]

theorem jsToUpper_idem (c : Char) : jsToUpper (jsToUpper c) = jsToUpper c := by
  refine jsToUpper_fix ?_
  intro hc
  have h1 : ('a').toNat ≤ (jsToUpper c).toNat := char_le_iff.1 hc.1
  have h2 : (jsToUpper c).toNat ≤ ('z').toNat := char_le_iff.1 hc.2
  have ha : ('a').toNat = 97 := rfl
  have hz : ('z').toNat = 122 := rfl
  rw [jsToUpper_toNat c] at h1 h2
  by_cases h : 97 ≤ c.toNat ∧ c.toNat ≤ 122
  · rw [if_pos h] at h1; omega
  · rw [if_neg h] at h1 h2; omega

theorem decDigitChar_toNat {d : Nat} (h : d < 10) : (decDigitChar d).toNat = 48 + d := by
  unfold decDigitChar
  exact toNat_ofNat_valid (by omega)

theorem parseDecimal_toDecimalString (n : Nat) : parseDecimal (toDecimalString n) = n := by
  by_cases hn : n = 0
  · subst hn; rfl
  · unfold toDecimalString
    rw [if_neg hn]
    unfold parseDecimal
    show ((toBaseDigits 10 n).map decDigitChar).foldl _ 0 = n
    rw [List.foldl_map]
    have hcong : ∀ (l : List Nat) (acc : Nat), (∀ d ∈ l, d < 10) →
        l.foldl (fun a d => a * 10 + ((decDigitChar d).toNat - 48)) acc =
          l.foldl (fun a d => a * 10 + d) acc := by
      intro l
      induction l with
      | nil => intro acc _; rfl
      | cons d t ih =>
        intro acc hl
        show t.foldl _ (acc * 10 + ((decDigitChar d).toNat - 48)) = t.foldl _ (acc * 10 + d)
        rw [decDigitChar_toNat (hl d (List.mem_cons_self d t))]
        simpa using ih _ (fun x hx => hl x (List.mem_cons_of_mem d hx))
    rw [hcong _ 0 (toBaseDigits_digit_lt (by omega))]
    exact ofBaseDigits_toBaseDigits (by omega) n

/-! ## Claims about the UUID plugin -/

/-- C1: the claim states that parsing a generated UUID v4 yields version 4 and
variant RFC4122, the top two bits of byte 8 (binary 10) being classified as
RFC4122.  The generator does set those bits to binary 10, but `parseUuid`
classifies variant bits `0b10` as `Microsoft` (and only `0b01` as `RFC4122`),
so every generated v4 parses with variant `Microsoft`: shown here on the
all-zero random draw. -/
theorem c1_generated_v4_parses_as_microsoft :
    generateV4 (List.replicate 16 0) = "00000000-0000-4000-8000-000000000000" ∧
    parseUuid (generateV4 (List.replicate 16 0)) =
      some ⟨4, UuidVariant.Microsoft, [0, 0, 0, 0, 0, 0, 0x40, 0, 0x80, 0, 0, 0, 0, 0, 0, 0],
        none⟩ ∧
    UuidVariant.Microsoft ≠ UuidVariant.RFC4122 := by
  refine ⟨by decide, by decide, by decide⟩

/-- C3: the claim states that v7 identifiers with millisecond timestamps
`t1 < t2` compare `id1 < id2` lexicographically because the timestamp is
written big-endian into the first six bytes.  The generator's loop writes
`bytes[i] = (ts >> (i*8)) & 0xff`, i.e. LITTLE-endian, so at `t1 = 1`,
`t2 = 256` (all-zero draws) the order is reversed; `parseUuid` reads the six
bytes back big-endian, so the extracted timestamp of the `t1 = 1` identifier
is `2^40`, not 1.  (`String.instLT` is exactly the lexicographic order on the
`.data` character lists, which is how the comparison is stated here.) -/
theorem c3_v7_timestamp_order_reversed :
    generateV7 1 (List.replicate 10 0) = "01000000-0000-7000-8000-000000000000" ∧
    generateV7 256 (List.replicate 10 0) = "00010000-0000-7000-8000-000000000000" ∧
    (generateV7 256 (List.replicate 10 0)).data < (generateV7 1 (List.replicate 10 0)).data ∧
    (parseUuid (generateV7 1 (List.replicate 10 0))).map UuidParsed.timestamp =
      some (some 1099511627776) := by
  refine ⟨by decide, by decide, by decide, by decide⟩

/-! ## Claims about the ULID plugin -/

/-- C2: the claim states that repeated monotonic ULID calls within one
millisecond are strictly increasing because each call increments the PREVIOUS
call's 80-bit random value.  The code instead increments a fresh random draw,
so a second draw that is numerically below the first produces a smaller
string: with both calls at millisecond 1, first draw ending in byte 9 and
second draw ending in byte 1, the second identifier is lexicographically
smaller than the first (`String.instLT` is the lexicographic order on the
`.data` character lists). -/
theorem c2_monotonic_ulid_can_decrease :
    (generateMonotonicUlid ⟨0, 0⟩ 1 (List.replicate 9 0 ++ [9])).2 = .ok "10000000009" ∧
    (generateMonotonicUlid ⟨0, 0⟩ 1 (List.replicate 9 0 ++ [9])).1 = ⟨1, 1⟩ ∧
    (generateMonotonicUlid ⟨1, 1⟩ 1 (List.replicate 9 0 ++ [1])).2 = .ok "10000000002" ∧
    ("10000000002" : String).data < ("10000000009" : String).data := by
  exact ⟨rfl, rfl, rfl, by decide⟩

/-- C7: the claim states that every generated ULID is exactly 26 characters,
a most-significant-digit-first 10-character time part plus a 16-character
random part, for every draw.  `encodeBase` emits no leading zeros and nothing
pads the random part, so the all-zero draw yields a 10-character identifier
(rejected by the plugin's own validator); the time part of timestamp 1 is
`"1000000000"` — least significant digit first. -/
theorem c7_ulid_not_always_26_chars :
    generateUlid 1 (List.replicate 10 0) = .ok "1000000000" ∧
    ("1000000000" : String).data.length = 10 ∧
    isValidUlid "1000000000".data = false := by
  exact ⟨rfl, by decide, by decide⟩

/-! ## Claims about the CUID2 plugin -/

/-- C6: the claim states that CUID2 generation returns exactly the requested
length `L` (24 to 32).  The random segment contributes only
`ceil(0.75 * randomLength)` characters, so at the default length 24 with an
8-character base36 timestamp and the 4-character Node fingerprint the
identifier is 22 characters — short of the requested 24 and rejected by the
plugin's own validator. -/
theorem c6_cuid2_default_length_is_22 :
    generateCuid2 24 'a' 1700000000000 (List.replicate 9 0) "nod0".data =
      .ok "aloyw3v28000000000nod0".data ∧
    ("aloyw3v28000000000nod0" : String).data.length = 22 ∧
    isValidCuid2 "aloyw3v28000000000nod0".data = false := by
  exact ⟨rfl, by decide, by decide⟩

/-! ## Claims about the Snowflake plugin -/

/-- C9 counterexample: the claim states `isValid` returns true exactly for
strings of 1 to 20 decimal digits WHOSE VALUE FITS IN 64 BITS.  The regular
expression checks only the digit count: twenty nines pass although their
value exceeds `2^64 - 1`. -/
theorem c9_counterexample_20_nines :
    isValidSnowflake "99999999999999999999" = true ∧
    2 ^ 64 ≤ parseDecimal "99999999999999999999" := by
  exact ⟨by decide, by decide⟩

/-- C9 (amended): `isValidSnowflake` returns true exactly when the string
consists of 1 to 20 decimal digits; no 64-bit range check (nor any other
semantic check) is performed. -/
theorem c9_isvalid_snowflake_syntactic (s : String) :
    isValidSnowflake s = true ↔
      1 ≤ s.data.length ∧ s.data.length ≤ 20 ∧ ∀ c ∈ s.data, '0' ≤ c ∧ c ≤ '9' := by
  unfold isValidSnowflake
  simp [List.all_eq_true, Bool.and_eq_true, decide_eq_true_eq, and_assoc]

/-- C10: whenever a snowflake generation call fails (not configured, or the
clock moved backwards), the mutable state (`sequence`, `lastTime`) is exactly
as it was before the call: both guards run before any state mutation. -/
theorem c10_snowflake_error_keeps_state (config : Option SnowflakeConfig)
    (st : SnowflakeState) (now : Nat) (e : UidErr)
    (h : (snowflakeStep config st now).2 = .error e) :
    (snowflakeStep config st now).1 = st := by
  match config with
  | none => rfl
  | some cfg =>
    simp only [snowflakeStep] at h ⊢
    by_cases hlt : now < st.lastTime
    · simp [hlt]
    · simp [hlt] at h

/-- C10 witness: both error kinds at concrete inputs, the state `⟨5, 100⟩`
surviving unchanged. -/
theorem c10_snowflake_error_keeps_state_witness :
    (snowflakeStep none ⟨5, 100⟩ 7).1 = ⟨5, 100⟩ ∧
    (snowflakeStep (some ⟨1, 1, some 0⟩) ⟨5, 100⟩ 7).1 = ⟨5, 100⟩ :=
  ⟨c10_snowflake_error_keeps_state none ⟨5, 100⟩ 7 .notConfigured rfl,
   c10_snowflake_error_keeps_state (some ⟨1, 1, some 0⟩) ⟨5, 100⟩ 7 .clockBackwards rfl⟩

/-! ## Claim C8: ULID timestamp decoding -/

/-- C8 counterexample: the claim states decoding rejects any input containing
one of the excluded letters `I,L,O,U` rather than producing a timestamp from
it.  `decodeTime` has no rejection path at all: on `"1I"` the `I` is silently
skipped and the timestamp 1 is produced, the same value as for `"1"`. -/
theorem c8_counterexample_decode_skips_excluded :
    decodeTime "1I".data = 1 ∧ decodeTime "1".data = 1 := by
  exact ⟨by decide, by decide⟩

/-- C8 (amended): ULID timestamp decoding accepts both upper- and lower-case
characters (each character is uppercased before lookup, so uppercasing the
input changes nothing), but characters outside the Crockford alphabet —
including the excluded letters `I,L,O,U` — are silently SKIPPED rather than
rejected, so the timestamp is the one of the filtered string; the rejection
of identifiers containing such characters is performed only by the separate
validator `isValidUlid`. -/
theorem c8_decode_skips_validator_rejects :
    (∀ l : List Char,
      decodeTime l = decodeTime (l.filter (fun c => decide (jsToUpper c ∈ CROCKFORD_BASE32)))) ∧
    (∀ l : List Char, decodeTime (l.map jsToUpper) = decodeTime l) ∧
    (∀ l : List Char, ∀ c ∈ l, jsToUpper c ∉ CROCKFORD_BASE32 → isValidUlid l = false) := by
  refine ⟨?_, ?_, ?_⟩
  · intro l
    unfold decodeTime
    have key : ∀ (l : List Char) (acc : Nat),
        l.foldl (fun timestamp c =>
          if jsToUpper c ∈ CROCKFORD_BASE32 then
            (timestamp <<< 5) ||| List.indexOf (jsToUpper c) CROCKFORD_BASE32
          else timestamp) acc =
        (l.filter (fun c => decide (jsToUpper c ∈ CROCKFORD_BASE32))).foldl
          (fun timestamp c =>
          if jsToUpper c ∈ CROCKFORD_BASE32 then
            (timestamp <<< 5) ||| List.indexOf (jsToUpper c) CROCKFORD_BASE32
          else timestamp) acc := by
      intro l
      induction l with
      | nil => intro acc; rfl
      | cons c t ih =>
        intro acc
        by_cases hc : jsToUpper c ∈ CROCKFORD_BASE32
        · rw [List.filter_cons_of_pos (by simpa using hc)]
          simp only [List.foldl_cons]
          exact ih _
        · rw [List.filter_cons_of_neg (by simpa using hc)]
          simp only [List.foldl_cons]
          rw [if_neg hc]
          exact ih _
    exact key l 0
  · intro l
    unfold decodeTime
    have key : ∀ (l : List Char) (acc : Nat),
        (l.map jsToUpper).foldl (fun timestamp c =>
          if jsToUpper c ∈ CROCKFORD_BASE32 then
            (timestamp <<< 5) ||| List.indexOf (jsToUpper c) CROCKFORD_BASE32
          else timestamp) acc =
        l.foldl (fun timestamp c =>
          if jsToUpper c ∈ CROCKFORD_BASE32 then
            (timestamp <<< 5) ||| List.indexOf (jsToUpper c) CROCKFORD_BASE32
          else timestamp) acc := by
      intro l
      induction l with
      | nil => intro acc; rfl
      | cons c t ih =>
        intro acc
        simp only [List.map_cons, List.foldl_cons]
        rw [jsToUpper_idem]
        exact ih _
    exact key l 0
  · intro l c hc hnot
    unfold isValidUlid
    rcases hval : l.all (fun c => decide (jsToUpper c ∈ CROCKFORD_BASE32)) with _ | _
    · simp
    · exfalso
      rw [List.all_eq_true] at hval
      exact hnot (by simpa using hval c hc)

/-- C8 witness: the amended statement applied at concrete inputs (a lowercase
string, and a 26-character identifier containing the excluded letter `I`). -/
theorem c8_decode_skips_validator_rejects_witness :
    decodeTime "1i".data =
      decodeTime ("1i".data.filter (fun c => decide (jsToUpper c ∈ CROCKFORD_BASE32))) ∧
    decodeTime ("1i".data.map jsToUpper) = decodeTime "1i".data ∧
    isValidUlid "0123456789ABCDEFGHJKMNPQRI".data = false :=
  ⟨c8_decode_skips_validator_rejects.1 "1i".data,
   c8_decode_skips_validator_rejects.2.1 "1i".data,
   c8_decode_skips_validator_rejects.2.2 "0123456789ABCDEFGHJKMNPQRI".data 'I'
     (by decide) (by decide)⟩

/-! ## Claim C4: snowflake layout and parse round trip -/

theorem snowflakeCompose_eq {rel dc w seq : Nat} (hdc : dc < 32) (hw : w < 32)
    (hseq : seq < 4096) :
    snowflakeCompose rel dc w seq = rel * 2 ^ 22 + dc * 2 ^ 17 + w * 2 ^ 12 + seq := by
  unfold snowflakeCompose
  have hdcm : dc &&& 0x1f = dc := by
    have h := Nat.and_pow_two_sub_one_of_lt_two_pow (show dc < 2 ^ 5 by omega)
    norm_num at h
    exact h
  have hwm : w &&& 0x1f = w := by
    have h := Nat.and_pow_two_sub_one_of_lt_two_pow (show w < 2 ^ 5 by omega)
    norm_num at h
    exact h
  rw [hdcm, hwm, Nat.or_assoc, Nat.or_assoc]
  rw [shiftLeft_or_eq_mul_add (show seq < 2 ^ 12 by omega)]
  rw [shiftLeft_or_eq_mul_add (show w * 2 ^ 12 + seq < 2 ^ 17 by
    have : (2:Nat) ^ 17 = 131072 := by norm_num
    have h12 : (2:Nat) ^ 12 = 4096 := by norm_num
    omega)]
  rw [shiftLeft_or_eq_mul_add (show dc * 2 ^ 17 + (w * 2 ^ 12 + seq) < 2 ^ 22 by
    have : (2:Nat) ^ 22 = 4194304 := by norm_num
    have h17 : (2:Nat) ^ 17 = 131072 := by norm_num
    have h12 : (2:Nat) ^ 12 = 4096 := by norm_num
    omega)]
  ring

/-- C4: the snowflake value is composed as
`(now - epoch) << 22 | datacenterId << 17 | workerId << 12 | sequence`, and
parsing the decimal string recovers the configured fields and the absolute
timestamp; in particular the concrete instance `workerId=5, datacenterId=3,
epoch=0, now=1700000000000, sequence=0` equals
`(1700000000000 << 22) | (3 << 17) | (5 << 12)`. -/
theorem c4_snowflake_compose_parse :
    (∀ rel dc w seq epoch : Nat, dc < 32 → w < 32 → seq < 4096 → rel < 2 ^ 41 →
      parseSnowflake (toDecimalString (snowflakeCompose rel dc w seq)) epoch =
        ⟨rel + epoch, dc, w, seq⟩) ∧
    snowflakeCompose 1700000000000 3 5 0 =
      ((1700000000000 <<< 22) ||| (3 <<< 17)) ||| (5 <<< 12) := by
  constructor
  · intro rel dc w seq epoch hdc hw hseq hrel
    unfold parseSnowflake
    rw [parseDecimal_toDecimalString, snowflakeCompose_eq hdc hw hseq]
    have hm41 : (0x1ffffffffff : Nat) = 2 ^ 41 - 1 := by norm_num
    have hm5 : (0x1f : Nat) = 2 ^ 5 - 1 := by norm_num
    have hm12 : (0xfff : Nat) = 2 ^ 12 - 1 := by norm_num
    rw [SnowflakeParsed.mk.injEq, hm41, hm5, hm12]
    simp only [Nat.shiftRight_eq_div_pow, Nat.and_pow_two_sub_one_eq_mod]
    refine ⟨?_, ?_, ?_, ?_⟩ <;> omega
  · decide

/-- C4 witness: the round trip at the concrete instance of the claim. -/
theorem c4_snowflake_compose_parse_witness :
    parseSnowflake (toDecimalString (snowflakeCompose 1700000000000 3 5 0)) 0 =
      ⟨1700000000000, 3, 5, 0⟩ := by
  have h := c4_snowflake_compose_parse.1 1700000000000 3 5 0 0
    (by norm_num) (by norm_num) (by norm_num) (by norm_num)
  simpa using h

/-! ## Claim C5: base codec round trip -/

theorem drop_replicate {α : Type} (a : α) {k p : Nat} (h : k ≤ p) :
    (List.replicate p a).drop k = List.replicate (p - k) a := by
  conv_lhs => rw [show p = k + (p - k) by omega, List.replicate_add]
  rw [List.drop_left' (List.length_replicate _ _)]

theorem normalizeLen_pad {D : List Nat} {p n : Nat} (h : D.length ≤ n) :
    normalizeLen (List.replicate p 0 ++ D) n = List.replicate (n - D.length) 0 ++ D := by
  unfold normalizeLen
  rw [List.length_append, List.length_replicate]
  by_cases hc : n ≤ p + D.length
  · rw [if_pos hc,
      List.drop_append_of_le_length (by simp only [List.length_replicate]; omega),
      drop_replicate _ (by omega)]
    have he : p - (p + D.length - n) = n - D.length := by omega
    rw [he]
  · rw [if_neg hc, ← List.append_assoc, ← List.replicate_add]
    have he : n - (p + D.length) + p = n - D.length := by omega
    rw [he]

theorem decodeNum_map_getD {alphabet : List Char} (hnd : alphabet.Nodup) :
    ∀ (digits : List Nat) (acc : Nat), (∀ d ∈ digits, d < alphabet.length) →
      decodeNum alphabet acc (digits.map (fun d => alphabet.getD d ' ')) =
        .ok (digits.foldl (fun a d => a * alphabet.length + d) acc) := by
  intro digits
  induction digits with
  | nil => intro acc _; rfl
  | cons d t ih =>
    intro acc hd
    have hdl : d < alphabet.length := hd d (List.mem_cons_self d t)
    have hget : alphabet.getD d ' ' = alphabet[d] := List.getD_eq_getElem alphabet ' ' hdl
    simp only [List.map_cons, decodeNum, hget]
    rw [if_pos (List.getElem_mem hdl), List.indexOf_getElem hnd d hdl]
    exact ih _ (fun x hx => hd x (List.mem_cons_of_mem d hx))

theorem encodeBase_ok {bytes : List Nat} {alphabet : List Char}
    (hval : validAlphabet alphabet = true) (hne : bytes ≠ []) :
    encodeBase bytes alphabet =
      .ok ((toBaseDigits alphabet.length (bytesToNumber bytes)).map
        (fun d => alphabet.getD d ' ')) := by
  unfold encodeBase
  rw [hval]
  simp [hne]

theorem decodeBase_map {alphabet : List Char} (hval : validAlphabet alphabet = true)
    (hnd : alphabet.Nodup) {digits : List Nat} (hd : ∀ d ∈ digits, d < alphabet.length) :
    decodeBase (digits.map (fun d => alphabet.getD d ' ')) alphabet =
      .ok (List.replicate ((digits.length * Nat.clog 2 alphabet.length + 7) / 8 -
          (toBaseDigits 256 (ofBaseDigits alphabet.length digits)).length) 0 ++
        toBaseDigits 256 (ofBaseDigits alphabet.length digits)) := by
  unfold decodeBase
  rw [hval]
  simp only [Bool.not_true, Bool.false_eq_true, if_false]
  rw [decodeNum_map_getD hnd digits 0 hd]
  simp only [List.length_map]
  have hfold : List.foldl (fun a d => a * alphabet.length + d) 0 digits =
      ofBaseDigits alphabet.length digits := rfl
  rw [hfold]
  by_cases hN : ofBaseDigits alphabet.length digits = 0
  · rw [if_pos hN, hN]
    have hD : toBaseDigits 256 0 = [] := rfl
    rw [hD]
    simp
  · rw [if_neg hN]

/-- C5: for every alphabet of at least 2 distinct characters and every byte
sequence of length up to 64, decoding the encoding reconstructs the bytes
once the decoded list is left-trimmed or left-zero-padded to the original
(externally tracked) byte length. -/
theorem c5_base_codec_roundtrip (bytes : List Nat) (alphabet : List Char)
    (hal : 2 ≤ alphabet.length) (hnd : alphabet.Nodup)
    (hb : ∀ x ∈ bytes, x < 256) (hlen : bytes.length ≤ 64) :
    ∃ encoded decoded,
      encodeBase bytes alphabet = .ok encoded ∧
      decodeBase encoded alphabet = .ok decoded ∧
      normalizeLen decoded bytes.length = bytes := by
  have hval : validAlphabet alphabet = true := by
    unfold validAlphabet
    simp [hal, hnd]
  have hN : bytesToNumber bytes = ofBaseDigits 256 bytes := bytesToNumber_eq_ofBaseDigits hb
  by_cases hemp : bytes = []
  · subst hemp
    refine ⟨[], [], ?_, ?_, ?_⟩
    · unfold encodeBase
      rw [hval]
      rfl
    · unfold decodeBase
      rw [hval]
      simp only [Bool.not_true, Bool.false_eq_true, if_false]
      rw [show decodeNum alphabet 0 [] = Except.ok 0 from rfl]
      norm_num
    · rfl
  · have hdlt : ∀ d ∈ toBaseDigits alphabet.length (bytesToNumber bytes),
        d < alphabet.length := toBaseDigits_digit_lt hal
    refine ⟨_, _, encodeBase_ok hval hemp, decodeBase_map hval hnd hdlt, ?_⟩
    have hvalue : ofBaseDigits alphabet.length
        (toBaseDigits alphabet.length (bytesToNumber bytes)) = bytesToNumber bytes :=
      ofBaseDigits_toBaseDigits hal _
    rw [hvalue]
    have hNlt : bytesToNumber bytes < 256 ^ bytes.length := by
      rw [hN]
      exact ofBaseDigits_lt (by norm_num) hb
    have hDlen : (toBaseDigits 256 (bytesToNumber bytes)).length ≤ bytes.length :=
      toBaseDigits_length_le (by norm_num) hNlt
    rw [normalizeLen_pad hDlen]
    refine ofBaseDigits_inj (b := 256) ?_ ?_ hb ?_
    · simp only [List.length_append, List.length_replicate]
      omega
    · intro d hd
      rcases List.mem_append.1 hd with h | h
      · rw [List.eq_of_mem_replicate h]
        norm_num
      · exact toBaseDigits_digit_lt (by norm_num) d h
    · rw [ofBaseDigits_replicate_zero, ofBaseDigits_toBaseDigits (by norm_num), hN]

/-- C5 witness: the round trip at the two-byte sequence `[0, 255]` over the
two-character alphabet `"ab"` (the decoded value must be re-padded with the
leading zero byte). -/
theorem c5_base_codec_roundtrip_witness :
    ∃ encoded decoded,
      encodeBase [0, 255] "ab".data = .ok encoded ∧
      decodeBase encoded "ab".data = .ok decoded ∧
      normalizeLen decoded ([0, 255] : List Nat).length = [0, 255] :=
  c5_base_codec_roundtrip [0, 255] "ab".data (by decide) (by decide) (by decide) (by decide)

end UID
